import Mathlib

/-!
Verification of the kanji_video_player subtitle engine.

The development shallowly embeds the JavaScript source of the repository:
strings become lists of characters, DOM trees become an inductive markup
type, and the asynchronous dictionary service becomes an explicit oracle
describing the outcome of each HTTP request.  Machine numbers in the
source are plain JavaScript numbers used only at small non-negative
integer values, so they are modelled as `Nat` (playback timestamps,
which are compared against parsed values, as `Int`).
-/

/-! ## Generic character-list helpers (JavaScript string primitives) -/

/-- Characters removed by JavaScript `String.prototype.trim` (the common
ASCII whitespace, NBSP and the BOM; the exotic Unicode space separators do
not occur in the repository's data). -/
def isJsSpace (c : Char) : Bool :=
  c == ' ' || c == '\t' || c == '\n' || c == '\r' || c == '\x0b' ||
  c == '\x0c' || c == '\u00A0' || c == '\uFEFF'

/-- JavaScript `s.trim()`. -/
def jsTrim (s : List Char) : List Char :=
  ((s.dropWhile isJsSpace).reverse.dropWhile isJsSpace).reverse

/-- Whether a string is empty or consists solely of whitespace: the
JavaScript test `!s || s.trim() === ''`. -/
def isBlank (s : List Char) : Bool :=
  s.isEmpty || (jsTrim s).isEmpty

/-- Worker for `splitOnChar`; `cur` holds the current piece reversed. -/
def splitOnCharAux (sep : Char) : List Char → List Char → List (List Char)
  | [], cur => [cur.reverse]
  | c :: rest, cur =>
    if c == sep then cur.reverse :: splitOnCharAux sep rest []
    else splitOnCharAux sep rest (c :: cur)

/-- JavaScript `s.split(sep)` for a single-character separator. -/
def splitOnChar (sep : Char) (s : List Char) : List (List Char) :=
  splitOnCharAux sep s []

/-- Worker for `splitBlocks`: JavaScript `s.split('\n\n')`, scanning
left to right for non-overlapping occurrences of the two-newline
separator. -/
def splitBlocksAux : List Char → List Char → List (List Char)
  | [], cur => [cur.reverse]
  | '\n' :: '\n' :: rest, cur => cur.reverse :: splitBlocksAux rest []
  | c :: rest, cur => splitBlocksAux rest (c :: cur)

/-- JavaScript `s.split('\n\n')`. -/
def splitBlocks (s : List Char) : List (List Char) :=
  splitBlocksAux s []

/-- The line-ending normalization `content.replace(/\r\n|\r|\n/g, '\n')`
of `parseSRT`. -/
def normalizeNewlines : List Char → List Char
  | [] => []
  | '\r' :: '\n' :: rest => '\n' :: normalizeNewlines rest
  | '\r' :: rest => '\n' :: normalizeNewlines rest
  | c :: rest => c :: normalizeNewlines rest

/-- Base-10 value of a digit-only string: the behaviour of JavaScript
`Number` and `parseInt` on the digit groups captured by the timestamp
regular expression (the parser only ever applies them to such groups). -/
def digitsToNat (s : List Char) : Nat :=
  s.foldl (fun n c => n * 10 + (c.toNat - 48)) 0

/-- Does `needle` occur in `hay` starting at offset `i`?  (JavaScript
`hay.indexOf(needle, i) === i` for the exact position.) -/
def occursAt (hay needle : List Char) (i : Nat) : Bool :=
  (hay.drop i).take needle.length == needle

/-- Scan offsets `i, i+1, ...` (bounded by `fuel`) for the first
occurrence of `needle`. -/
def indexOfAux (hay needle : List Char) : Nat → Nat → Option Nat
  | _, 0 => none
  | i, fuel + 1 =>
    if occursAt hay needle i then some i else indexOfAux hay needle (i + 1) fuel

/-- JavaScript `hay.indexOf(needle, start)` for a non-empty `needle`,
returning `none` for `-1`. -/
def indexOfFrom (hay needle : List Char) (start : Nat) : Option Nat :=
  indexOfAux hay needle start (hay.length + 1 - start)

/-- JavaScript `hay.includes(needle)` for non-empty `needle`. -/
def containsSub (hay needle : List Char) : Bool :=
  (indexOfFrom hay needle 0).isSome

/-! ## SRT parsing (`subtitle-parser.js`) -/

/-- A parsed subtitle: `{start, end, text}` in the source.  The `end`
field is called `endMs` because `end` is a Lean keyword. -/
structure SubtitleEntry where
  start : Nat
  endMs : Nat
  text : List Char
deriving DecidableEq, Repr

/-- Does a 12-character slice have the shape `dd:dd:dd,ddd` required by
the timestamp regular expression `\d{2}:\d{2}:\d{2},\d{3}`? -/
def isTimestampShape : List Char → Bool
  | [h1, h2, c1, m1, m2, c2, s1, s2, c3, d1, d2, d3] =>
    h1.isDigit && h2.isDigit && c1 == ':' && m1.isDigit && m2.isDigit &&
    c2 == ':' && s1.isDigit && s2.isDigit && c3 == ',' &&
    d1.isDigit && d2.isDigit && d3.isDigit
  | _ => false

/-- Does the timestamp-line pattern
`(\d{2}:\d{2}:\d{2},\d{3}) --> (\d{2}:\d{2}:\d{2},\d{3})` match at the
head of `l`? -/
def timePatternAt (l : List Char) : Bool :=
  isTimestampShape (l.take 12) && ((l.drop 12).take 5 == " --> ".data) &&
  isTimestampShape ((l.drop 17).take 12)

/-- `timestampLine.match(...)`: first position (scanning left to right)
where the time-range pattern matches, returning the two captured
timestamp groups. -/
def findTimeMatch : List Char → Option (List Char × List Char)
  | [] => none
  | l@(_ :: rest) =>
    if timePatternAt l then some (l.take 12, (l.drop 17).take 12)
    else findTimeMatch rest

/-- `timeToMilliseconds` of `subtitle-parser.js`: split `HH:MM:SS,mmm`
on the comma and the colons and combine the base-10 component values.
Within `parseSRT` it is applied only to regex-validated captures, whose
components are digit-only. -/
def timeToMilliseconds (ts : List Char) : Nat :=
  let parts := splitOnChar ',' ts
  let time := parts.getD 0 []
  let milliseconds := parts.getD 1 []
  let hms := splitOnChar ':' time
  let hours := digitsToNat (hms.getD 0 [])
  let minutes := digitsToNat (hms.getD 1 [])
  let seconds := digitsToNat (hms.getD 2 [])
  (hours * 3600 + minutes * 60 + seconds) * 1000 + digitsToNat milliseconds

/-- One iteration of the `parseSRT` block loop: `continue` on a block of
fewer than 3 lines or on a timestamp line the pattern does not match,
otherwise build the entry (remaining lines joined with single spaces). -/
def parseBlock (block : List Char) : Option SubtitleEntry :=
  let lines := splitOnChar '\n' block
  if lines.length < 3 then none
  else
    match findTimeMatch (lines.getD 1 []) with
    | none => none
    | some (ts1, ts2) =>
      some ⟨timeToMilliseconds ts1, timeToMilliseconds ts2,
        List.intercalate [' '] (lines.drop 2)⟩

/-- `parseSRT`: normalize line endings, trim, split into blocks on blank
lines, and keep the successfully parsed blocks in block order. -/
def parseSRT (content : List Char) : List SubtitleEntry :=
  (splitBlocks (jsTrim (normalizeNewlines content))).filterMap parseBlock

/-- The interval test of `findSubtitleAtTime`:
`time >= subtitle.start && time <= subtitle.end`. -/
def timeInEntry (t : Int) (s : SubtitleEntry) : Bool :=
  decide ((s.start : Int) ≤ t ∧ t ≤ (s.endMs : Int))

/-- `findSubtitleAtTime`: `subtitles.find(...) || null` — the first
entry in loaded order whose interval contains the queried time. -/
def findSubtitleAtTime (subtitles : List SubtitleEntry) (t : Int) :
    Option SubtitleEntry :=
  subtitles.find? (timeInEntry t)

/-! ## Timeline Index: active-subtitle lookup (claim C1) -/

/-- C1: for every loaded timeline and integer time `t` (milliseconds),
`findSubtitleAtTime` returns `none` exactly when no entry's interval
contains `t`, and returns `some e` exactly when `e` contains `t` and is
the first such entry in the order given at load time. -/
theorem findSubtitleAtTime_correct (subs : List SubtitleEntry) (t : Int) :
    (findSubtitleAtTime subs t = none ↔
      ∀ s ∈ subs, ¬((s.start : Int) ≤ t ∧ t ≤ (s.endMs : Int))) ∧
    (∀ e : SubtitleEntry, findSubtitleAtTime subs t = some e ↔
      ((e.start : Int) ≤ t ∧ t ≤ (e.endMs : Int)) ∧
      ∃ pre post, subs = pre ++ e :: post ∧
        ∀ s ∈ pre, ¬((s.start : Int) ≤ t ∧ t ≤ (s.endMs : Int))) := by
  constructor
  · rw [findSubtitleAtTime, List.find?_eq_none]
    simp [timeInEntry]
  · intro e
    rw [findSubtitleAtTime, List.find?_eq_some]
    simp only [timeInEntry, decide_eq_true_eq, Bool.not_eq_true',
      decide_eq_false_iff_not]

/-- Witness for C1 at a concrete overlapping timeline: time 7 lies in
both intervals and the first entry in load order is returned. -/
theorem findSubtitleAtTime_correct_witness :
    findSubtitleAtTime [⟨0, 10, "a".data⟩, ⟨5, 20, "b".data⟩] 7 =
      some ⟨0, 10, "a".data⟩ := by
  exact ((findSubtitleAtTime_correct [⟨0, 10, "a".data⟩, ⟨5, 20, "b".data⟩] 7).2
    ⟨0, 10, "a".data⟩).mpr
    ⟨by decide, [], [⟨5, 20, "b".data⟩], rfl, by decide⟩

/-! ## SRT parsing behaviour (claim C2) -/

/-- The character for the decimal digit `d`. -/
def digitChar (d : Nat) : Char := Char.ofNat (48 + d)

theorem digitChar_toNat {d : Nat} (h : d < 10) : (digitChar d).toNat = 48 + d := by
  interval_cases d <;> decide

theorem digitChar_beq_colon {d : Nat} (h : d < 10) :
    (digitChar d == ':') = false := by
  interval_cases d <;> decide

theorem digitChar_beq_comma {d : Nat} (h : d < 10) :
    (digitChar d == ',') = false := by
  interval_cases d <;> decide

/-- `timeToMilliseconds` on an arbitrary well-formed `HH:MM:SS,mmm`
timestamp computes `((H*3600 + M*60 + S) * 1000) + mmm` with each
component read in base 10, with no bounds validation on the component
values. -/
theorem timeToMilliseconds_eq (h1 h2 m1 m2 s1 s2 x1 x2 x3 : Nat)
    (hh1 : h1 < 10) (hh2 : h2 < 10) (hm1 : m1 < 10) (hm2 : m2 < 10)
    (hs1 : s1 < 10) (hs2 : s2 < 10) (hx1 : x1 < 10) (hx2 : x2 < 10)
    (hx3 : x3 < 10) :
    timeToMilliseconds [digitChar h1, digitChar h2, ':', digitChar m1,
      digitChar m2, ':', digitChar s1, digitChar s2, ',', digitChar x1,
      digitChar x2, digitChar x3] =
    ((h1 * 10 + h2) * 3600 + (m1 * 10 + m2) * 60 + (s1 * 10 + s2)) * 1000 +
      (x1 * 100 + x2 * 10 + x3) := by
  have hcc : ((':' : Char) == ',') = false := by decide
  have hct : ((':' : Char) == ':') = true := by decide
  simp [timeToMilliseconds, splitOnChar, splitOnCharAux, digitsToNat,
    digitChar_beq_colon, digitChar_beq_comma, hh1, hh2, hm1, hm2, hs1, hs2,
    hx1, hx2, hx3, digitChar_toNat, hcc, hct]
  ring

/-- C2: `parseSRT` yields one entry per well-formed block in block order
(no re-sorting); a block with fewer than 3 lines, or whose second line
does not match the time-range pattern, is silently skipped; timestamps
convert by the base-10 formula `((H*3600 + M*60 + S)*1000) + mmm` with
no bounds validation (minutes 61 is accepted arithmetically); and the
range `00:00:01,000 --> 00:00:02,500` yields start 1000 and end 2500. -/
theorem parseSRT_spec :
    (∀ content : List Char, parseSRT content =
      (splitBlocks (jsTrim (normalizeNewlines content))).filterMap parseBlock) ∧
    (∀ block : List Char,
      (splitOnChar '\n' block).length < 3 → parseBlock block = none) ∧
    (∀ block : List Char, ¬(splitOnChar '\n' block).length < 3 →
      findTimeMatch ((splitOnChar '\n' block).getD 1 []) = none →
      parseBlock block = none) ∧
    (∀ h1 h2 m1 m2 s1 s2 x1 x2 x3 : Nat, h1 < 10 → h2 < 10 → m1 < 10 →
      m2 < 10 → s1 < 10 → s2 < 10 → x1 < 10 → x2 < 10 → x3 < 10 →
      timeToMilliseconds [digitChar h1, digitChar h2, ':', digitChar m1,
        digitChar m2, ':', digitChar s1, digitChar s2, ',', digitChar x1,
        digitChar x2, digitChar x3] =
      ((h1 * 10 + h2) * 3600 + (m1 * 10 + m2) * 60 + (s1 * 10 + s2)) * 1000 +
        (x1 * 100 + x2 * 10 + x3)) ∧
    timeToMilliseconds "00:61:00,000".data = 3660000 ∧
    parseSRT "1\n00:00:01,000 --> 00:00:02,500\nHello".data =
      [⟨1000, 2500, "Hello".data⟩] := by
  refine ⟨fun _ => rfl, ?_, ?_, ?_, by decide, by decide⟩
  · intro block h
    simp [parseBlock, h]
  · intro block h1 h2
    simp only [List.getD, List.get?_eq_getElem?] at h2
    simp [parseBlock, h1, h2]
  · intro h1 h2 m1 m2 s1 s2 x1 x2 x3 hh1 hh2 hm1 hm2 hs1 hs2 hx1 hx2 hx3
    exact timeToMilliseconds_eq h1 h2 m1 m2 s1 s2 x1 x2 x3
      hh1 hh2 hm1 hm2 hs1 hs2 hx1 hx2 hx3

/-- Witness for C2: the skip rule and the timestamp formula applied at
concrete inputs (a two-line block; the timestamp `12:34:56,789`). -/
theorem parseSRT_spec_witness :
    parseBlock "1\nx".data = none ∧
    timeToMilliseconds [digitChar 1, digitChar 2, ':', digitChar 3,
      digitChar 4, ':', digitChar 5, digitChar 6, ',', digitChar 7,
      digitChar 8, digitChar 9] = 45296789 := by
  constructor
  · exact parseSRT_spec.2.1 "1\nx".data (by decide)
  · have h := parseSRT_spec.2.2.2.1 1 2 3 4 5 6 7 8 9 (by decide) (by decide)
      (by decide) (by decide) (by decide) (by decide) (by decide) (by decide)
      (by decide)
    simpa using h

/-! ## Tokens, aligned words and katakana normalization -/

/-- A morphological-analyzer token `{surface_form, reading, pos}`; the
empty list models an absent reading (`token.reading || ""`). -/
structure Token where
  surface_form : List Char
  reading : List Char
  pos : List Char
deriving DecidableEq, Repr

/-- The popup payload `wordObj.data = {word, hiragana, meaning}`; the
empty list models a null or missing string (both are falsy wherever the
source tests these fields). -/
structure WordData where
  word : List Char
  hiragana : List Char
  meaning : List Char
deriving DecidableEq, Repr

/-- An aligned word `{word, position, length, data}` (`kanjiWords`
element).  `data` is optional because the compositor guards on
`if (word.data)`. -/
structure KanjiWord where
  word : List Char
  position : Nat
  length : Nat
  data : Option WordData
deriving DecidableEq, Repr

/-- `convertKatakanaToHiragana`: replace every character in the katakana
range U+30A1..U+30F6 by the character 0x60 code points lower, leaving
all other characters unchanged (`!text` yields the empty string, which
the empty list already models). -/
def convertKatakanaToHiragana (text : List Char) : List Char :=
  text.map fun c =>
    if 0x30A1 ≤ c.toNat ∧ c.toNat ≤ 0x30F6 then Char.ofNat (c.toNat - 0x60)
    else c

/-- The part-of-speech whitelist `["名詞", "動詞", "副詞", "形容詞"]`. -/
def targetPos : List (List Char) :=
  ["名詞".data, "動詞".data, "副詞".data, "形容詞".data]

/-- An analyzer token kept for alignment: `{word, reading, pos}`. -/
structure SegmentedWord where
  word : List Char
  reading : List Char
  pos : List Char
deriving DecidableEq, Repr

/-- The token filtering/mapping of `enhanceWithKanjiPopups`: keep tokens
whose part of speech is whitelisted and normalize their readings with
`convertKatakanaToHiragana`. -/
def tokensToSegmented (tokens : List Token) : List SegmentedWord :=
  (tokens.filter fun t => targetPos.contains t.pos).map fun t =>
    ⟨t.surface_form, convertKatakanaToHiragana t.reading, t.pos⟩

/-- The Position Aligner loop of `enhanceWithKanjiPopups`: one forward
cursor `textIndex`, cursor-anchored search, fall back to searching from
offset 0, discard words not found at all; found words are emitted with
`meaning` still null. -/
def alignWords (originalText : List Char) :
    List SegmentedWord → Nat → List KanjiWord
  | [], _ => []
  | w :: rest, textIndex =>
    if isBlank w.word then alignWords originalText rest textIndex
    else
      match indexOfFrom originalText w.word textIndex with
      | some position =>
        ⟨w.word, position, w.word.length, some ⟨w.word, w.reading, []⟩⟩ ::
          alignWords originalText rest (position + w.word.length)
      | none =>
        match indexOfFrom originalText w.word 0 with
        | some posFromStart =>
          ⟨w.word, posFromStart, w.word.length,
            some ⟨w.word, w.reading, []⟩⟩ ::
            alignWords originalText rest (posFromStart + w.word.length)
        | none => alignWords originalText rest textIndex

/-! ## Search-primitive lemmas -/

theorem indexOfAux_sound (hay needle : List Char) :
    ∀ fuel i p : Nat, indexOfAux hay needle i fuel = some p →
      occursAt hay needle p = true ∧ i ≤ p ∧ p < i + fuel := by
  intro fuel
  induction fuel with
  | zero => intro i p h; simp [indexOfAux] at h
  | succ n ih =>
    intro i p h
    by_cases hc : occursAt hay needle i
    · simp [indexOfAux, hc] at h
      exact h ▸ ⟨hc, Nat.le_refl i, by omega⟩
    · simp [indexOfAux, hc] at h
      obtain ⟨h1, h2, h3⟩ := ih (i + 1) p h
      exact ⟨h1, by omega, by omega⟩

theorem indexOfFrom_sound {hay needle : List Char} {start p : Nat}
    (h : indexOfFrom hay needle start = some p) :
    occursAt hay needle p = true ∧ start ≤ p ∧ p ≤ hay.length := by
  obtain ⟨h1, h2, h3⟩ := indexOfAux_sound hay needle _ start p h
  refine ⟨h1, h2, ?_⟩
  by_cases hs : start ≤ hay.length + 1
  · omega
  · exfalso
    rw [indexOfFrom, Nat.sub_eq_zero_of_le (by omega)] at h
    simp [indexOfAux] at h

/-- A match of `needle` at an offset `p` inside `hay` lies entirely
inside `hay`. -/
theorem occursAt_le_length {hay needle : List Char} {p : Nat}
    (hp : p ≤ hay.length) (h : occursAt hay needle p = true) :
    p + needle.length ≤ hay.length := by
  unfold occursAt at h
  have hlen := congrArg List.length (eq_of_beq h)
  simp [List.length_take, List.length_drop] at hlen
  omega

theorem alignWords_sound (text : List Char) :
    ∀ (ws : List SegmentedWord) (i : Nat) (k : KanjiWord),
      k ∈ alignWords text ws i →
      occursAt text k.word k.position = true ∧ k.length = k.word.length := by
  intro ws
  induction ws with
  | nil => intro i k h; simp [alignWords] at h
  | cons w rest ih =>
    intro i k h
    rw [alignWords] at h
    by_cases hb : isBlank w.word
    · rw [if_pos hb] at h
      exact ih i k h
    · rw [if_neg hb] at h
      cases hc : indexOfFrom text w.word i with
      | some p =>
        rw [hc] at h
        rcases List.mem_cons.mp h with h1 | h1
        · subst h1
          exact ⟨(indexOfFrom_sound hc).1, rfl⟩
        · exact ih _ k h1
      | none =>
        rw [hc] at h
        cases hc0 : indexOfFrom text w.word 0 with
        | some p =>
          rw [hc0] at h
          rcases List.mem_cons.mp h with h1 | h1
          · subst h1
            exact ⟨(indexOfFrom_sound hc0).1, rfl⟩
          · exact ih _ k h1
        | none =>
          rw [hc0] at h
          exact ih i k h

/-- C3: the Position Aligner processes words in analyzer order with a
single forward cursor: a blank word is skipped; a word found from the
cursor is recorded there and the cursor advances past it; a word not
found from the cursor is searched from offset 0, discarded when still
absent, and otherwise recorded at the fallback position with the cursor
advanced past it.  Every emitted word really occurs at its recorded
position with `length` the word length, and on text 東京に行く with
tokens 東京 then 行く the result is 東京 at position 0 length 2 and
行く at position 3 length 2. -/
theorem alignWords_correct :
    (∀ (text : List Char) (w : SegmentedWord) (rest : List SegmentedWord)
        (i : Nat), isBlank w.word = true →
      alignWords text (w :: rest) i = alignWords text rest i) ∧
    (∀ (text : List Char) (w : SegmentedWord) (rest : List SegmentedWord)
        (i p : Nat), isBlank w.word = false →
      indexOfFrom text w.word i = some p →
      alignWords text (w :: rest) i =
        ⟨w.word, p, w.word.length, some ⟨w.word, w.reading, []⟩⟩ ::
          alignWords text rest (p + w.word.length)) ∧
    (∀ (text : List Char) (w : SegmentedWord) (rest : List SegmentedWord)
        (i p : Nat), isBlank w.word = false →
      indexOfFrom text w.word i = none →
      indexOfFrom text w.word 0 = some p →
      alignWords text (w :: rest) i =
        ⟨w.word, p, w.word.length, some ⟨w.word, w.reading, []⟩⟩ ::
          alignWords text rest (p + w.word.length)) ∧
    (∀ (text : List Char) (w : SegmentedWord) (rest : List SegmentedWord)
        (i : Nat), isBlank w.word = false →
      indexOfFrom text w.word i = none → indexOfFrom text w.word 0 = none →
      alignWords text (w :: rest) i = alignWords text rest i) ∧
    (∀ (text : List Char) (ws : List SegmentedWord) (i : Nat)
        (k : KanjiWord), k ∈ alignWords text ws i →
      occursAt text k.word k.position = true ∧ k.length = k.word.length) ∧
    alignWords "東京に行く".data
        [⟨"東京".data, "とうきょう".data, "名詞".data⟩,
         ⟨"行く".data, "いく".data, "動詞".data⟩] 0 =
      [⟨"東京".data, 0, 2, some ⟨"東京".data, "とうきょう".data, []⟩⟩,
       ⟨"行く".data, 3, 2, some ⟨"行く".data, "いく".data, []⟩⟩] := by
  refine ⟨?_, ?_, ?_, ?_, alignWords_sound, by decide⟩
  · intro text w rest i hb
    rw [alignWords, if_pos hb]
  · intro text w rest i p hb hc
    rw [alignWords, if_neg (by simp [hb]), hc]
  · intro text w rest i p hb hc hc0
    rw [alignWords, if_neg (by simp [hb]), hc, hc0]
  · intro text w rest i hb hc hc0
    rw [alignWords, if_neg (by simp [hb]), hc, hc0]

/-- Witness for C3: the cursor-anchored equation applied on the concrete
text あめあめ with the duplicate word あめ found at position 0 from
cursor 0. -/
theorem alignWords_correct_witness :
    alignWords "あめあめ".data [⟨"あめ".data, "あめ".data, "名詞".data⟩] 0 =
      [⟨"あめ".data, 0, 2, some ⟨"あめ".data, "あめ".data, []⟩⟩] := by
  rw [alignWords_correct.2.1 "あめあめ".data
    ⟨"あめ".data, "あめ".data, "名詞".data⟩ [] 0 0 (by decide) (by decide)]
  decide

theorem toNat_ofNat_of_lt {n : Nat} (h : n < 55296) :
    (Char.ofNat n).toNat = n := by
  have hv : n.isValidChar := Or.inl h
  simp [Char.ofNat, hv, Char.ofNatAux, Char.toNat, UInt32.toNat, UInt32.ofNat']

/-- C10: `convertKatakanaToHiragana` preserves length, lowers every
character in the katakana range U+30A1..U+30F6 by 0x60 code points,
leaves every other character unchanged, maps the empty (or missing)
string to the empty string, and is applied to every token reading kept
by the segmentation step before the reading is used as popup data. -/
theorem convertKatakanaToHiragana_correct :
    (∀ s : List Char, (convertKatakanaToHiragana s).length = s.length) ∧
    (∀ (s : List Char) (i : Nat) (c : Char), s[i]? = some c →
      0x30A1 ≤ c.toNat → c.toNat ≤ 0x30F6 →
      ∃ c2 : Char, (convertKatakanaToHiragana s)[i]? = some c2 ∧
        c2.toNat = c.toNat - 0x60) ∧
    (∀ (s : List Char) (i : Nat) (c : Char), s[i]? = some c →
      ¬(0x30A1 ≤ c.toNat ∧ c.toNat ≤ 0x30F6) →
      (convertKatakanaToHiragana s)[i]? = some c) ∧
    convertKatakanaToHiragana [] = [] ∧
    (∀ (tokens : List Token) (w : SegmentedWord),
      w ∈ tokensToSegmented tokens →
      ∃ t : Token, t ∈ tokens ∧ w.word = t.surface_form ∧
        w.reading = convertKatakanaToHiragana t.reading) ∧
    convertKatakanaToHiragana "トウキョウ".data = "とうきょう".data := by
  refine ⟨fun s => by simp [convertKatakanaToHiragana], ?_, ?_, rfl, ?_,
    by decide⟩
  · intro s i c hc h1 h2
    refine ⟨Char.ofNat (c.toNat - 0x60), ?_, ?_⟩
    · simp [convertKatakanaToHiragana, List.getElem?_map, hc, h1, h2]
    · have hlt : c.toNat - 0x60 < 55296 := by omega
      have := toNat_ofNat_of_lt hlt
      omega
  · intro s i c hc h
    simp only [convertKatakanaToHiragana, List.getElem?_map, hc]
    simp [h]
  · intro tokens w hw
    simp only [tokensToSegmented, List.mem_map, List.mem_filter] at hw
    obtain ⟨t, ⟨ht, _⟩, rfl⟩ := hw
    exact ⟨t, ht, rfl, rfl⟩

/-- Witness for C10: the in-range rule applied to the single katakana
character ア (U+30A2), which lowers to あ (U+3042). -/
theorem convertKatakanaToHiragana_correct_witness :
    ∃ c2 : Char, (convertKatakanaToHiragana ['ア'])[0]? = some c2 ∧
      c2.toNat = 'ア'.toNat - 0x60 :=
  convertKatakanaToHiragana_correct.2.1 ['ア'] 0 'ア' (by decide) (by decide)
    (by decide)

/-! ## Dictionary Resolution Pipeline (`lookupWholeWord`) -/

/-- A record of the service's `matches` array: `{word, meaning,
hiragana}`; the empty list models a missing/null field (both are falsy
wherever the source tests them). -/
structure MatchRec where
  word : List Char
  meaning : List Char
  hiragana : List Char
deriving DecidableEq, Repr

/-- Outcome of one `fetch` of a dictionary endpoint: `fetchError` — the
fetch promise rejects (network failure); `jsonError` — the response is
OK but `response.json()` throws (malformed body); `notOk` —
`response.ok` is false; `ok ms` — a parsed body whose `matches` field
is `ms` (`none` when the field is absent). -/
inductive ApiResult where
  | fetchError
  | jsonError
  | notOk
  | ok (body : Option (List MatchRec))
deriving DecidableEq, Repr

/-- The dictionary service's behaviour for one resolved word: the
outcomes of the `/search/inflected` (tier 1), `/search` (tier 2) and
limit-5 `/search/partial` (tier 3) requests. -/
structure Oracle where
  tier1 : ApiResult
  tier2 : ApiResult
  tier3 : ApiResult
deriving DecidableEq, Repr

/-- Result of a `lookupWholeWord` run: the final `wordObj.data.meaning`
and the number of requests issued to each tier. -/
structure LookupResult where
  meaning : List Char
  calls1 : Nat
  calls2 : Nat
  calls3 : Nat
deriving DecidableEq, Repr

def errorFetching : List Char := "Error fetching meaning".data

def noDefinition : List Char := "No definition found".data

/-- `matches.find(m => m.word === word && m.meaning && m.meaning.trim()
!== '')`. -/
def exactMatchWithMeaning (word : List Char) (ms : List MatchRec) :
    Option MatchRec :=
  ms.find? fun m =>
    m.word == word && !m.meaning.isEmpty && !(jsTrim m.meaning).isEmpty

/-- `matches.find(m => m.meaning && m.meaning.trim() !== '')`. -/
def anyMatchWithMeaning (ms : List MatchRec) : Option MatchRec :=
  ms.find? fun m => !m.meaning.isEmpty && !(jsTrim m.meaning).isEmpty

/-- The trailing default of the first `lookupWholeWord`:
`if (!meaning || meaning.trim() === '') meaning = "No definition
found"`; reached only after all three fetches were issued. -/
def lookupV1Final (meaning1 : List Char) : LookupResult :=
  if meaning1.isEmpty || (jsTrim meaning1).isEmpty then
    ⟨noDefinition, 1, 1, 1⟩
  else ⟨meaning1, 1, 1, 1⟩

/-- Tier 3 (`/search/partial?limit=5`) of the first `lookupWholeWord`:
prefer an exact match with non-blank meaning, then any match with
non-blank meaning; a thrown fetch/parse failure is caught by the
function-wide handler, which sets "Error fetching meaning". -/
def lookupV1Tier3 (word meaning1 : List Char) (o : Oracle) : LookupResult :=
  match o.tier3 with
  | .fetchError => ⟨errorFetching, 1, 1, 1⟩
  | .jsonError => ⟨errorFetching, 1, 1, 1⟩
  | .notOk => lookupV1Final meaning1
  | .ok none => lookupV1Final meaning1
  | .ok (some ms) =>
    if ms.isEmpty then lookupV1Final meaning1
    else
      match exactMatchWithMeaning word ms with
      | some m => ⟨m.meaning, 1, 1, 1⟩
      | none =>
        match anyMatchWithMeaning ms with
        | some m => ⟨m.meaning, 1, 1, 1⟩
        | none => lookupV1Final meaning1

/-- Tier 2 (`/search`) of the first `lookupWholeWord`: any match with a
non-blank meaning is returned, otherwise fall through to tier 3. -/
def lookupV1Tier2 (word meaning1 : List Char) (o : Oracle) : LookupResult :=
  match o.tier2 with
  | .fetchError => ⟨errorFetching, 1, 1, 0⟩
  | .jsonError => ⟨errorFetching, 1, 1, 0⟩
  | .notOk => lookupV1Tier3 word meaning1 o
  | .ok none => lookupV1Tier3 word meaning1 o
  | .ok (some ms) =>
    if ms.isEmpty then lookupV1Tier3 word meaning1 o
    else
      match anyMatchWithMeaning ms with
      | some m => ⟨m.meaning, 1, 1, 0⟩
      | none => lookupV1Tier3 word meaning1 o

/-- The first `lookupWholeWord` (the version without console logging):
tier 1 is `/search/inflected` with the three-step preference — exact
match with non-blank meaning, any match with non-blank meaning, else
the first match's meaning is written into the word (without returning)
and the flow continues with tier 2.  `meaning0` is the meaning already
stored on `wordObj.data` (null at every call site). -/
def lookupV1 (word meaning0 : List Char) (o : Oracle) : LookupResult :=
  match o.tier1 with
  | .fetchError => ⟨errorFetching, 1, 0, 0⟩
  | .jsonError => ⟨errorFetching, 1, 0, 0⟩
  | .notOk => lookupV1Tier2 word meaning0 o
  | .ok none => lookupV1Tier2 word meaning0 o
  | .ok (some ms) =>
    if ms.isEmpty then lookupV1Tier2 word meaning0 o
    else
      match exactMatchWithMeaning word ms with
      | some m => ⟨m.meaning, 1, 0, 0⟩
      | none =>
        match anyMatchWithMeaning ms with
        | some m => ⟨m.meaning, 1, 0, 0⟩
        | none =>
          let m0 := ms.headD ⟨[], [], []⟩
          lookupV1Tier2 word
            (if m0.meaning.isEmpty then meaning0 else m0.meaning) o

/-- The trailing default of the second `lookupWholeWord`:
`if (!wordObj.data.meaning) meaning = "No definition found"` (truthiness
only, no trim). -/
def lookupV2Final (meaning0 : List Char) : LookupResult :=
  if meaning0.isEmpty then ⟨noDefinition, 1, 1, 1⟩ else ⟨meaning0, 1, 1, 1⟩

/-- Tier 3 of the second `lookupWholeWord`: only `matches[0].meaning`
is consulted. -/
def lookupV2Tier3 (meaning0 : List Char) (o : Oracle) : LookupResult :=
  match o.tier3 with
  | .fetchError => ⟨errorFetching, 1, 1, 1⟩
  | .jsonError => ⟨errorFetching, 1, 1, 1⟩
  | .notOk => lookupV2Final meaning0
  | .ok none => lookupV2Final meaning0
  | .ok (some ms) =>
    match ms with
    | [] => lookupV2Final meaning0
    | m :: _ =>
      if m.meaning.isEmpty then lookupV2Final meaning0
      else ⟨m.meaning, 1, 1, 1⟩

/-- Tier 2 of the second `lookupWholeWord`: only `matches[0].meaning`
is consulted. -/
def lookupV2Tier2 (meaning0 : List Char) (o : Oracle) : LookupResult :=
  match o.tier2 with
  | .fetchError => ⟨errorFetching, 1, 1, 0⟩
  | .jsonError => ⟨errorFetching, 1, 1, 0⟩
  | .notOk => lookupV2Tier3 meaning0 o
  | .ok none => lookupV2Tier3 meaning0 o
  | .ok (some ms) =>
    match ms with
    | [] => lookupV2Tier3 meaning0 o
    | m :: _ =>
      if m.meaning.isEmpty then lookupV2Tier3 meaning0 o
      else ⟨m.meaning, 1, 1, 0⟩

/-- The second `lookupWholeWord` (the logging version): tier 1 prefers
an exact surface match with a truthy meaning, else falls back to
`matches[0].meaning`, returning in both cases. -/
def lookupV2 (word meaning0 : List Char) (o : Oracle) : LookupResult :=
  match o.tier1 with
  | .fetchError => ⟨errorFetching, 1, 0, 0⟩
  | .jsonError => ⟨errorFetching, 1, 0, 0⟩
  | .notOk => lookupV2Tier2 meaning0 o
  | .ok none => lookupV2Tier2 meaning0 o
  | .ok (some ms) =>
    match ms with
    | [] => lookupV2Tier2 meaning0 o
    | m0 :: _ =>
      match ms.find? (fun m => m.word == word) with
      | some m =>
        if m.meaning.isEmpty then
          if m0.meaning.isEmpty then lookupV2Tier2 meaning0 o
          else ⟨m0.meaning, 1, 0, 0⟩
        else ⟨m.meaning, 1, 0, 0⟩
      | none =>
        if m0.meaning.isEmpty then lookupV2Tier2 meaning0 o
        else ⟨m0.meaning, 1, 0, 0⟩

/-- Did tier 1 of the first `lookupWholeWord` yield a usable meaning
(one that makes it return before tier 2)? -/
def tier1UsableV1 (word : List Char) (o : Oracle) : Bool :=
  match o.tier1 with
  | .ok (some ms) =>
    !ms.isEmpty && ((exactMatchWithMeaning word ms).isSome ||
      (anyMatchWithMeaning ms).isSome)
  | _ => false

/-- Did tier 2 of the first `lookupWholeWord` yield a usable meaning? -/
def tier2UsableV1 (o : Oracle) : Bool :=
  match o.tier2 with
  | .ok (some ms) => !ms.isEmpty && (anyMatchWithMeaning ms).isSome
  | _ => false

theorem lookupV1Final_calls (m1 : List Char) :
    (lookupV1Final m1).calls1 = 1 ∧ (lookupV1Final m1).calls2 = 1 ∧
    (lookupV1Final m1).calls3 = 1 := by
  unfold lookupV1Final; split <;> simp

theorem lookupV1Tier3_calls (word m1 : List Char) (o : Oracle) :
    (lookupV1Tier3 word m1 o).calls1 = 1 ∧
    (lookupV1Tier3 word m1 o).calls2 = 1 ∧
    (lookupV1Tier3 word m1 o).calls3 = 1 := by
  unfold lookupV1Tier3
  (repeat' split) <;> simp [lookupV1Final_calls]

theorem lookupV1Tier2_calls (word m1 : List Char) (o : Oracle) :
    (lookupV1Tier2 word m1 o).calls1 = 1 ∧
    (lookupV1Tier2 word m1 o).calls2 = 1 ∧
    (lookupV1Tier2 word m1 o).calls3 ≤ 1 := by
  unfold lookupV1Tier2
  (repeat' split) <;> simp [lookupV1Tier3_calls]

theorem lookupV1_calls (word m0 : List Char) (o : Oracle) :
    (lookupV1 word m0 o).calls1 = 1 ∧
    (lookupV1 word m0 o).calls2 ≤ (lookupV1 word m0 o).calls1 ∧
    (lookupV1 word m0 o).calls3 ≤ (lookupV1 word m0 o).calls2 := by
  unfold lookupV1
  (repeat' split) <;>
    simp [lookupV1Tier2_calls, (lookupV1Tier2_calls word _ o).1,
      (lookupV1Tier2_calls word _ o).2.1, (lookupV1Tier2_calls word _ o).2.2]

theorem lookupV1_usable1 (word m0 : List Char) (o : Oracle)
    (h : tier1UsableV1 word o = true) :
    (lookupV1 word m0 o).calls2 = 0 ∧ (lookupV1 word m0 o).calls3 = 0 := by
  unfold tier1UsableV1 at h
  cases ht : o.tier1 with
  | fetchError => rw [ht] at h; simp at h
  | jsonError => rw [ht] at h; simp at h
  | notOk => rw [ht] at h; simp at h
  | ok body =>
    cases body with
    | none => rw [ht] at h; simp at h
    | some ms =>
      rw [ht] at h
      simp only [Bool.and_eq_true, Bool.or_eq_true, Bool.not_eq_true'] at h
      obtain ⟨hne, hor⟩ := h
      cases hex : exactMatchWithMeaning word ms with
      | some m => simp [lookupV1, ht, hne, hex]
      | none =>
        cases hany : anyMatchWithMeaning ms with
        | some m => simp [lookupV1, ht, hne, hex, hany]
        | none =>
          rw [hex, hany] at hor
          simp at hor

theorem lookupV1Tier2_usable (word m1 : List Char) (o : Oracle)
    (h : tier2UsableV1 o = true) : (lookupV1Tier2 word m1 o).calls3 = 0 := by
  unfold tier2UsableV1 at h
  cases ht : o.tier2 with
  | fetchError => rw [ht] at h; simp at h
  | jsonError => rw [ht] at h; simp at h
  | notOk => rw [ht] at h; simp at h
  | ok body =>
    cases body with
    | none => rw [ht] at h; simp at h
    | some ms =>
      rw [ht] at h
      simp only [Bool.and_eq_true, Bool.not_eq_true'] at h
      obtain ⟨hne, hsome⟩ := h
      cases hany : anyMatchWithMeaning ms with
      | some m => simp [lookupV1Tier2, ht, hne, hany]
      | none => rw [hany] at hsome; simp at hsome

theorem lookupV1_usable2 (word m0 : List Char) (o : Oracle)
    (h : tier2UsableV1 o = true) : (lookupV1 word m0 o).calls3 = 0 := by
  unfold lookupV1
  (repeat' split) <;> simp [lookupV1Tier2_usable _ _ _ h]

/-- C6: in both versions of `lookupWholeWord` the tiers are consulted
in order inflected, direct, partial: tier 1 is always queried exactly
once, later tiers at most once each and only after the earlier one, a
usable tier-1 outcome (in particular an exact surface match with a
non-blank meaning) stops the pipeline with zero tier-2 and tier-3
requests, and a usable tier-2 outcome stops it with zero tier-3
requests. -/
theorem lookupWholeWord_tier_order :
    (∀ (word m0 : List Char) (o : Oracle) (ms : List MatchRec)
        (m : MatchRec), o.tier1 = .ok (some ms) →
      exactMatchWithMeaning word ms = some m →
      lookupV1 word m0 o = ⟨m.meaning, 1, 0, 0⟩) ∧
    (∀ (word m0 : List Char) (o : Oracle) (ms : List MatchRec)
        (m : MatchRec), o.tier1 = .ok (some ms) →
      ms.find? (fun x => x.word == word) = some m →
      m.meaning.isEmpty = false →
      lookupV2 word m0 o = ⟨m.meaning, 1, 0, 0⟩) ∧
    (∀ (word m0 : List Char) (o : Oracle),
      (lookupV1 word m0 o).calls1 = 1 ∧
      (lookupV1 word m0 o).calls2 ≤ (lookupV1 word m0 o).calls1 ∧
      (lookupV1 word m0 o).calls3 ≤ (lookupV1 word m0 o).calls2) ∧
    (∀ (word m0 : List Char) (o : Oracle), tier1UsableV1 word o = true →
      (lookupV1 word m0 o).calls2 = 0 ∧ (lookupV1 word m0 o).calls3 = 0) ∧
    (∀ (word m0 : List Char) (o : Oracle), tier2UsableV1 o = true →
      (lookupV1 word m0 o).calls3 = 0) := by
  refine ⟨?_, ?_, lookupV1_calls, lookupV1_usable1, lookupV1_usable2⟩
  · intro word m0 o ms m ht hex
    cases ms with
    | nil => simp [exactMatchWithMeaning] at hex
    | cons a rest => simp [lookupV1, ht, hex]
  · intro word m0 o ms m ht hfind hme
    cases ms with
    | nil => simp at hfind
    | cons a rest => simp [lookupV2, ht, hfind, hme]

/-- Witness for C6: a tier-1 exact match with non-empty meaning makes
both lookup versions return it with zero tier-2/tier-3 requests, even
though tiers 2 and 3 would also answer. -/
theorem lookupWholeWord_tier_order_witness :
    lookupV1 "日".data []
        ⟨.ok (some [⟨"日".data, "sun".data, []⟩]),
         .ok (some [⟨"日".data, "day".data, []⟩]),
         .ok (some [⟨"日".data, "Japan".data, []⟩])⟩ =
      ⟨"sun".data, 1, 0, 0⟩ ∧
    lookupV2 "日".data []
        ⟨.ok (some [⟨"日".data, "sun".data, []⟩]),
         .ok (some [⟨"日".data, "day".data, []⟩]),
         .ok (some [⟨"日".data, "Japan".data, []⟩])⟩ =
      ⟨"sun".data, 1, 0, 0⟩ := by
  constructor
  · exact lookupWholeWord_tier_order.1 "日".data [] _
      [⟨"日".data, "sun".data, []⟩] ⟨"日".data, "sun".data, []⟩ rfl
      (by decide)
  · exact lookupWholeWord_tier_order.2.1 "日".data [] _
      [⟨"日".data, "sun".data, []⟩] ⟨"日".data, "sun".data, []⟩ rfl
      (by decide) (by decide)

/-- The meanings carried by one endpoint response. -/
def apiMeanings : ApiResult → List (List Char)
  | .ok (some ms) => ms.map (·.meaning)
  | _ => []

/-- All meanings the service offered across the three endpoints. -/
def oracleMeanings (o : Oracle) : List (List Char) :=
  apiMeanings o.tier1 ++ apiMeanings o.tier2 ++ apiMeanings o.tier3

theorem lookupV1Final_total (m1 : List Char) :
    (lookupV1Final m1).meaning = noDefinition ∨
    (lookupV1Final m1).meaning = m1 := by
  unfold lookupV1Final; split <;> simp

theorem lookupV1Tier3_total (word m1 : List Char) (o : Oracle) :
    (lookupV1Tier3 word m1 o).meaning = errorFetching ∨
    (lookupV1Tier3 word m1 o).meaning = noDefinition ∨
    (lookupV1Tier3 word m1 o).meaning ∈ apiMeanings o.tier3 ∨
    (lookupV1Tier3 word m1 o).meaning = m1 := by
  unfold lookupV1Tier3
  cases ht : o.tier3 with
  | fetchError => simp
  | jsonError => simp
  | notOk => rcases lookupV1Final_total m1 with h | h <;> simp [h]
  | ok body =>
    cases body with
    | none => rcases lookupV1Final_total m1 with h | h <;> simp [h]
    | some ms =>
      by_cases he : ms.isEmpty
      · rcases lookupV1Final_total m1 with h | h <;> simp [he, h]
      · cases hex : exactMatchWithMeaning word ms with
        | some m =>
          have hm : m ∈ ms := List.mem_of_find?_eq_some hex
          simp [he, hex, apiMeanings]
          exact Or.inr (Or.inr (Or.inl ⟨m, hm, rfl⟩))
        | none =>
          cases hany : anyMatchWithMeaning ms with
          | some m =>
            have hm : m ∈ ms := List.mem_of_find?_eq_some hany
            simp [he, hex, hany, apiMeanings]
            exact Or.inr (Or.inr (Or.inl ⟨m, hm, rfl⟩))
          | none =>
            rcases lookupV1Final_total m1 with h | h <;>
              simp [he, hex, hany, h]

theorem lookupV1Tier2_total (word m1 : List Char) (o : Oracle) :
    (lookupV1Tier2 word m1 o).meaning = errorFetching ∨
    (lookupV1Tier2 word m1 o).meaning = noDefinition ∨
    (lookupV1Tier2 word m1 o).meaning ∈ apiMeanings o.tier2 ∨
    (lookupV1Tier2 word m1 o).meaning ∈ apiMeanings o.tier3 ∨
    (lookupV1Tier2 word m1 o).meaning = m1 := by
  unfold lookupV1Tier2
  have h3 := lookupV1Tier3_total word m1 o
  cases ht : o.tier2 with
  | fetchError => simp
  | jsonError => simp
  | notOk => tauto
  | ok body =>
    cases body with
    | none => tauto
    | some ms =>
      by_cases he : ms.isEmpty
      · simp only [he, if_true]; tauto
      · cases hany : anyMatchWithMeaning ms with
        | some m =>
          have hm : m ∈ ms := List.mem_of_find?_eq_some hany
          simp [he, hany, apiMeanings]
          exact Or.inr (Or.inr (Or.inl ⟨m, hm, rfl⟩))
        | none => simp only [he, if_false, hany, Bool.false_eq_true]; tauto

theorem lookupV1_total (word m0 : List Char) (o : Oracle) :
    (lookupV1 word m0 o).meaning = errorFetching ∨
    (lookupV1 word m0 o).meaning = noDefinition ∨
    (lookupV1 word m0 o).meaning ∈ oracleMeanings o ∨
    (lookupV1 word m0 o).meaning = m0 := by
  unfold lookupV1 oracleMeanings
  cases ht : o.tier1 with
  | fetchError => simp [ht]
  | jsonError => simp [ht]
  | notOk =>
    rcases lookupV1Tier2_total word m0 o with h | h | h | h | h <;>
      simp [ht, h, List.mem_append]
  | ok body =>
    cases body with
    | none =>
      rcases lookupV1Tier2_total word m0 o with h | h | h | h | h <;>
        simp [ht, h, List.mem_append]
    | some ms =>
      by_cases he : ms.isEmpty
      · rcases lookupV1Tier2_total word m0 o with h | h | h | h | h <;>
          simp [ht, he, h, List.mem_append]
      · cases hex : exactMatchWithMeaning word ms with
        | some m =>
          have hm : m ∈ ms := List.mem_of_find?_eq_some hex
          simp [ht, he, hex, apiMeanings, List.mem_append]

          exact Or.inr (Or.inr (Or.inl (Or.inl ⟨m, hm, rfl⟩)))
        | none =>
          cases hany : anyMatchWithMeaning ms with
          | some m =>
            have hm : m ∈ ms := List.mem_of_find?_eq_some hany
            simp [ht, he, hex, hany, apiMeanings, List.mem_append]
            exact Or.inr (Or.inr (Or.inl (Or.inl ⟨m, hm, rfl⟩)))
          | none =>
            have hhd : ms.headD ⟨[], [], []⟩ ∈ ms := by
              cases ms with
              | nil => simp at he
              | cons a t => simp [List.headD]
            simp only [ht, hex, hany, if_neg he]
            by_cases hm0 : (ms.headD ⟨[], [], []⟩).meaning.isEmpty = true
            · rw [if_pos hm0]
              rcases lookupV1Tier2_total word m0 o with h | h | h | h | h
              · exact Or.inl h
              · exact Or.inr (Or.inl h)
              · exact Or.inr (Or.inr (Or.inl (List.mem_append.mpr
                  (Or.inl (List.mem_append.mpr (Or.inr h))))))
              · exact Or.inr (Or.inr (Or.inl (List.mem_append.mpr (Or.inr h))))
              · exact Or.inr (Or.inr (Or.inr h))
            · rw [if_neg hm0]
              rcases lookupV1Tier2_total word
                  (ms.headD ⟨[], [], []⟩).meaning o with h | h | h | h | h
              · exact Or.inl h
              · exact Or.inr (Or.inl h)
              · exact Or.inr (Or.inr (Or.inl (List.mem_append.mpr
                  (Or.inl (List.mem_append.mpr (Or.inr h))))))
              · exact Or.inr (Or.inr (Or.inl (List.mem_append.mpr (Or.inr h))))
              · refine Or.inr (Or.inr (Or.inl (List.mem_append.mpr
                  (Or.inl (List.mem_append.mpr (Or.inl ?_))))))
                rw [h]
                exact List.mem_map_of_mem _ hhd

/-- Counterexample to C7 as stated: a network failure at tier 1 is not
treated as "tier produced nothing" — it aborts the whole resolution
with the sentinel and tier 2 is never queried (zero tier-2 calls), even
though tier 2 holds an exact match with non-empty meaning "good". -/
theorem lookupWholeWord_fallthrough_counterexample :
    lookupV1 "日".data []
        ⟨.fetchError, .ok (some [⟨"日".data, "good".data, []⟩]), .notOk⟩ =
      ⟨errorFetching, 1, 0, 0⟩ ∧
    (lookupV1 "日".data []
        ⟨.fetchError, .ok (some [⟨"日".data, "good".data, []⟩]),
         .notOk⟩).meaning ≠ "good".data := by
  constructor
  · rfl
  · decide

/-- C7 (amended): `lookupWholeWord` is total and always produces a
string — a meaning offered by the service, the caller's prior meaning,
or one of the two sentinels.  A non-OK response (or a body without
usable matches) at a tier is treated as that tier producing nothing and
falls through to the next tier, but a thrown failure (network error or
malformed body) at any tier aborts the whole resolution with the
sentinel "Error fetching meaning" and later tiers are not queried; when
every tier is exhausted with nothing usable the gloss is
"No definition found". -/
theorem lookupWholeWord_error_handling :
    (∀ (word m0 : List Char) (o : Oracle),
      (lookupV1 word m0 o).meaning = errorFetching ∨
      (lookupV1 word m0 o).meaning = noDefinition ∨
      (lookupV1 word m0 o).meaning ∈ oracleMeanings o ∨
      (lookupV1 word m0 o).meaning = m0) ∧
    (∀ (word m0 : List Char) (o : Oracle),
      o.tier1 = .notOk ∨ o.tier1 = .ok none →
      lookupV1 word m0 o = lookupV1Tier2 word m0 o) ∧
    (∀ (word m0 : List Char) (o : Oracle),
      o.tier1 = .fetchError ∨ o.tier1 = .jsonError →
      lookupV1 word m0 o = ⟨errorFetching, 1, 0, 0⟩) ∧
    (∀ (word m1 : List Char) (o : Oracle),
      o.tier2 = .fetchError ∨ o.tier2 = .jsonError →
      lookupV1Tier2 word m1 o = ⟨errorFetching, 1, 1, 0⟩) ∧
    (∀ (word m1 : List Char) (o : Oracle),
      o.tier3 = .fetchError ∨ o.tier3 = .jsonError →
      lookupV1Tier3 word m1 o = ⟨errorFetching, 1, 1, 1⟩) ∧
    (∀ (word : List Char) (o : Oracle),
      o.tier1 = .notOk ∨ o.tier1 = .ok none →
      o.tier2 = .notOk ∨ o.tier2 = .ok none →
      o.tier3 = .notOk ∨ o.tier3 = .ok none →
      lookupV1 word [] o = ⟨noDefinition, 1, 1, 1⟩) := by
  refine ⟨lookupV1_total, ?_, ?_, ?_, ?_, ?_⟩
  · rintro word m0 o (h | h) <;> simp [lookupV1, h]
  · rintro word m0 o (h | h) <;> simp [lookupV1, h]
  · rintro word m1 o (h | h) <;> simp [lookupV1Tier2, h]
  · rintro word m1 o (h | h) <;> simp [lookupV1Tier3, h]
  · rintro word o (h1 | h1) (h2 | h2) (h3 | h3) <;>
      simp [lookupV1, lookupV1Tier2, lookupV1Tier3, lookupV1Final,
        h1, h2, h3, jsTrim, noDefinition]

/-- Witness for C7 (amended): a malformed tier-1 body aborts with the
error sentinel. -/
theorem lookupWholeWord_error_handling_witness :
    lookupV1 "猫".data [] ⟨.jsonError, .notOk, .notOk⟩ =
      ⟨errorFetching, 1, 0, 0⟩ :=
  lookupWholeWord_error_handling.2.2.1 "猫".data [] _ (Or.inr rfl)

/-! ## The `KanjiDictionary` cache (`getWordMeaning`) -/

/-- `this.cache.get` over the association-list model of the `Map`:
`some v` when the word is present (`v` may be the explicit `none` the
source stores for "no match"). -/
def cacheGet (cache : List (List Char × Option MatchRec))
    (word : List Char) : Option (Option MatchRec) :=
  (cache.find? (fun e => e.1 == word)).map (·.2)

/-- `this.cache.set`: consing shadows any older entry, which is
observationally `Map.set`'s overwrite under `cacheGet`. -/
def cacheSet (cache : List (List Char × Option MatchRec))
    (word : List Char) (v : Option MatchRec) :
    List (List Char × Option MatchRec) :=
  (word, v) :: cache

/-- `KanjiDictionary.getWordMeaning`: consult the cache first; on a
miss issue the single direct-search request; cache the first match, or
an explicit null when the parsed body has no matches; return null
without caching on a network error, parse error or non-OK response.
The result is (returned match, cache afterwards, fetches issued). -/
def getWordMeaning (word : List Char)
    (cache : List (List Char × Option MatchRec)) (res : ApiResult) :
    Option MatchRec × List (List Char × Option MatchRec) × Nat :=
  match cacheGet cache word with
  | some v => (v, cache, 0)
  | none =>
    match res with
    | .fetchError => (none, cache, 1)
    | .jsonError => (none, cache, 1)
    | .notOk => (none, cache, 1)
    | .ok none => (none, cacheSet cache word none, 1)
    | .ok (some []) => (none, cacheSet cache word none, 1)
    | .ok (some (m :: _)) => (some m, cacheSet cache word (some m), 1)

/-- Counterexample to C8 as stated: the tiered resolution path
(`lookupWholeWord`) holds no cache — it is a pure function of the word
and the service, and issues its tier-1 request on every invocation, so
a second resolution of the same surface string in a session fetches
again instead of issuing zero network calls. -/
theorem lookupWholeWord_no_cache_counterexample :
    (lookupV1 "日".data []
        ⟨.ok (some [⟨"日".data, "sun".data, []⟩]), .notOk, .notOk⟩).calls1
      = 1 := by decide

/-- C8 (amended): `KanjiDictionary.getWordMeaning` consults the
per-session cache before issuing its single direct-search request (a
hit returns the cached value, the cache unchanged, and issues zero
requests); a miss issues exactly one request; a parsed response is
cached — the first match on success, an explicit null when there are no
matches — so that a second resolution of the same surface string issues
no network call and returns the cached result; errors and non-OK
responses are not cached.  The tiered `lookupWholeWord` path holds no
cache and issues its tier-1 request on every resolution. -/
theorem getWordMeaning_cache :
    (∀ (word : List Char) (cache : List (List Char × Option MatchRec))
        (res : ApiResult) (v : Option MatchRec),
      cacheGet cache word = some v →
      getWordMeaning word cache res = (v, cache, 0)) ∧
    (∀ (word : List Char) (cache : List (List Char × Option MatchRec))
        (res : ApiResult), cacheGet cache word = none →
      (getWordMeaning word cache res).2.2 = 1) ∧
    (∀ (word : List Char) (cache : List (List Char × Option MatchRec))
        (m : MatchRec) (rest : List MatchRec), cacheGet cache word = none →
      getWordMeaning word cache (.ok (some (m :: rest))) =
        (some m, cacheSet cache word (some m), 1)) ∧
    (∀ (word : List Char) (cache : List (List Char × Option MatchRec)),
      cacheGet cache word = none →
      getWordMeaning word cache (.ok (some [])) =
        (none, cacheSet cache word none, 1) ∧
      getWordMeaning word cache (.ok none) =
        (none, cacheSet cache word none, 1)) ∧
    (∀ (word : List Char) (cache : List (List Char × Option MatchRec))
        (v : Option MatchRec), cacheGet (cacheSet cache word v) word = some v) ∧
    (∀ (word : List Char) (cache : List (List Char × Option MatchRec))
        (m : MatchRec) (rest : List MatchRec) (res2 : ApiResult),
      cacheGet cache word = none →
      getWordMeaning word
          (getWordMeaning word cache (.ok (some (m :: rest)))).2.1 res2 =
        (some m, (getWordMeaning word cache (.ok (some (m :: rest)))).2.1,
          0)) ∧
    (∀ (word m0 : List Char) (o : Oracle), (lookupV1 word m0 o).calls1 = 1) := by
  have hget : ∀ (word : List Char)
      (cache : List (List Char × Option MatchRec)) (v : Option MatchRec),
      cacheGet (cacheSet cache word v) word = some v := by
    intro word cache v
    simp [cacheGet, cacheSet]
  refine ⟨?_, ?_, ?_, ?_, hget, ?_, ?_⟩
  · intro word cache res v h
    simp [getWordMeaning, h]
  · intro word cache res h
    cases res with
    | fetchError => simp [getWordMeaning, h]
    | jsonError => simp [getWordMeaning, h]
    | notOk => simp [getWordMeaning, h]
    | ok body =>
      cases body with
      | none => simp [getWordMeaning, h]
      | some ms => cases ms <;> simp [getWordMeaning, h]
  · intro word cache m rest h
    simp [getWordMeaning, h]
  · intro word cache h
    constructor <;> simp [getWordMeaning, h]
  · intro word cache m rest res2 h
    have h1 : getWordMeaning word cache (.ok (some (m :: rest))) =
        (some m, cacheSet cache word (some m), 1) := by
      simp [getWordMeaning, h]
    rw [h1]
    simp [getWordMeaning, hget]
  · intro word m0 o
    exact (lookupV1_calls word m0 o).1

/-- Witness for C8 (amended): a concrete hit — after resolving 猫 once
against a one-match response, a second resolution returns the cached
match with zero fetches. -/
theorem getWordMeaning_cache_witness :
    getWordMeaning "猫".data
        (getWordMeaning "猫".data []
          (.ok (some [⟨"猫".data, "cat".data, "ねこ".data⟩]))).2.1 .notOk =
      (some ⟨"猫".data, "cat".data, "ねこ".data⟩,
        (getWordMeaning "猫".data []
          (.ok (some [⟨"猫".data, "cat".data, "ねこ".data⟩]))).2.1, 0) :=
  getWordMeaning_cache.2.2.2.2.2.1 "猫".data []
    ⟨"猫".data, "cat".data, "ねこ".data⟩ [] .notOk rfl

/-! ## Markup trees (the DOM fragments the compositors build)

A node is a text leaf or an element carrying its tag, its `class`
attribute (the only attribute the subtitle engine reads or writes — the
source also clones other attributes, which no embedded algorithm
inspects) and its children. -/

mutual
inductive MNode where
  | text : List Char → MNode
  | elem : List Char → List Char → MForest → MNode
inductive MForest where
  | nil : MForest
  | cons : MNode → MForest → MForest
end

def MForest.append : MForest → MForest → MForest
  | .nil, g => g
  | .cons n f, g => .cons n (f.append g)

mutual
/-- DOM `textContent`: every text leaf, readings included. -/
def MNode.textContent : MNode → List Char
  | .text s => s
  | .elem _ _ children => children.textAll
def MForest.textAll : MForest → List Char
  | .nil => []
  | .cons n f => n.textContent ++ f.textAll
end

mutual
/-- The base text a reader sees: concatenation of all text leaves,
skipping reading sub-nodes (`rt`/`rp`) and popup payloads
(`class="kanji-popup"`), flattening every other wrapper. -/
def MNode.renderedText : MNode → List Char
  | .text s => s
  | .elem tag cls children =>
    if tag == "rt".data || tag == "rp".data || cls == "kanji-popup".data
    then [] else children.renderedAll
def MForest.renderedAll : MForest → List Char
  | .nil => []
  | .cons n f => n.renderedText ++ f.renderedAll
end

/-- `baseText.replace(/[()]/g, '')`. -/
def stripParens (s : List Char) : List Char :=
  s.filter fun c => !(c == '(' || c == ')')

/-- Children part of `getRubyBase`: text children and the `textContent`
of non-`rt`/`rp` element children. -/
def getRubyBaseAux : MForest → List Char
  | .nil => []
  | .cons (.text s) f => s ++ getRubyBaseAux f
  | .cons (.elem tag cls ch) f =>
    if tag == "rt".data || tag == "rp".data then getRubyBaseAux f
    else (MNode.elem tag cls ch).textContent ++ getRubyBaseAux f

/-- `getRubyBase`: the base (kanji) text of a ruby element, with
parentheses removed and trimmed.  Only ever applied to elements. -/
def getRubyBase : MNode → List Char
  | .text _ => []
  | .elem _ _ children => jsTrim (stripParens (getRubyBaseAux children))

/-- The popup payload: `[hiragana, meaning]` (keeping only truthy
fields) joined with " - ", or the `'No meaning available'` default when
the word carries no data. -/
def popupText : Option WordData → List Char
  | none => "No meaning available".data
  | some d =>
    List.intercalate " - ".data
      ((if d.hiragana.isEmpty then [] else [d.hiragana]) ++
        (if d.meaning.isEmpty then [] else [d.meaning]))

/-- The `span.kanji-popup` element. -/
def popupNode (d : Option WordData) : MNode :=
  .elem "span".data "kanji-popup".data (.cons (.text (popupText d)) .nil)

/-- A fragment produced when a text leaf is split by the tree-merge
compositor: plain text, or a word wrapped at the given offset within
the leaf. -/
inductive Frag where
  | plain : List Char → Frag
  | wrap : KanjiWord → Nat → Frag
deriving DecidableEq, Repr

/-- The base text a fragment contributes to the render. -/
def fragText : Frag → List Char
  | .plain s => s
  | .wrap w _ => w.word

/-- A fragment as a DOM node: a wrap is
`span.kanji-word [word text, popup]`. -/
def fragToNode : Frag → MNode
  | .plain s => .text s
  | .wrap w _ =>
    .elem "span".data "kanji-word".data
      (.cons (.text w.word) (.cons (popupNode w.data) .nil))

def fragsToForest : List Frag → MForest
  | [] => .nil
  | f :: fs => .cons (fragToNode f) (fragsToForest fs)

/-- `isRangeProcessed`: does any offset in `[start, stop)` belong to
the claimed set? -/
def isRangeProcessed (start stop : Nat) (proc : List Nat) : Bool :=
  proc.any fun i => start ≤ i && i < stop

/-- `markRangeProcessed`: claim every offset in `[start, stop)`. -/
def markRangeProcessed (start stop : Nat) (proc : List Nat) : List Nat :=
  List.range' start (stop - start) ++ proc

/-- Insert `a` after every element it does not strictly precede: the
position a stable (ES2019) `Array.sort` gives it. -/
def insSorted {α : Type} (lt : α → α → Bool) (a : α) : List α → List α
  | [] => [a]
  | x :: xs => if lt a x then a :: x :: xs else x :: insSorted lt a xs

/-- Stable sort by a strict comparator, as JavaScript `Array.sort`. -/
def sortByJs {α : Type} (lt : α → α → Bool) (l : List α) : List α :=
  l.foldl (fun acc a => insSorted lt a acc) []

/-- The text-leaf word loop of `processNode`: claim character ranges
with a forward `lastIndex` and the `processedIndexes` set, skipping a
word not found from `lastIndex` or whose range intersects an
already-claimed offset. -/
def leafLoop (text : List Char) :
    List KanjiWord → Nat → List Nat → List Frag
  | [], lastIndex, _ =>
    if lastIndex < text.length then [.plain (text.drop lastIndex)] else []
  | w :: rest, lastIndex, proc =>
    match indexOfFrom text w.word lastIndex with
    | none => leafLoop text rest lastIndex proc
    | some position =>
      if isRangeProcessed position (position + w.word.length) proc then
        leafLoop text rest lastIndex proc
      else
        (if position > lastIndex then
          [Frag.plain ((text.drop lastIndex).take (position - lastIndex))]
        else []) ++
        Frag.wrap w position ::
          leafLoop text rest (position + w.word.length)
            (markRangeProcessed position (position + w.word.length) proc)

/-- The words relevant to one text leaf in `processNode`: those whose
surface occurs in the leaf, sorted by first occurrence ascending with
ties broken by longer word first. -/
def relevantWordsV2 (text : List Char) (kanjiWords : List KanjiWord) :
    List KanjiWord :=
  sortByJs
    (fun a b =>
      let posA := (indexOfFrom text a.word 0).getD 0
      let posB := (indexOfFrom text b.word 0).getD 0
      decide (posA < posB) ||
        (decide (posA = posB) && decide (b.word.length < a.word.length)))
    (kanjiWords.filter fun kw => containsSub text kw.word)

/-- `processNode` on a text leaf: blank text and text without relevant
words pass through; otherwise the leaf is split by `leafLoop`. -/
def processTextNodeV2 (kanjiWords : List KanjiWord) (text : List Char) :
    MForest :=
  if text.isEmpty || (jsTrim text).isEmpty then .cons (.text text) .nil
  else
    let relevant := relevantWordsV2 text kanjiWords
    if relevant.isEmpty then .cons (.text text) .nil
    else fragsToForest (leafLoop text relevant 0 [])

mutual
/-- `processNode` (tree-merge compositor): clone `rt` unchanged; wrap a
ruby element whose base text matches a word (equal, or either contains
the other) in `span.kanji-word [popup, ruby]`; rebuild other elements
with processed children; split text leaves. -/
def processNode (ws : List KanjiWord) : MNode → MForest
  | .text s => processTextNodeV2 ws s
  | .elem tag cls children =>
    if tag == "rt".data then .cons (.elem tag cls children) .nil
    else if tag == "ruby".data then
      match ws.find? (fun kw =>
        getRubyBase (.elem tag cls children) == kw.word ||
        containsSub (getRubyBase (.elem tag cls children)) kw.word ||
        containsSub kw.word (getRubyBase (.elem tag cls children))) with
      | some kw =>
        .cons (.elem "span".data "kanji-word".data
          (.cons (popupNode kw.data)
            (.cons (.elem tag cls children) .nil))) .nil
      | none => .cons (.elem tag cls children) .nil
    else
      .cons (.elem tag cls (processForest ws children)) .nil
def processForest (ws : List KanjiWord) : MForest → MForest
  | .nil => .nil
  | .cons n f => (processNode ws n).append (processForest ws f)
end

/-- The `enhanceWithKanjiPopups` guard around the tree-merge
compositor: an empty resolved word list leaves the displayed tree
untouched. -/
def enhanceTreeV2 (tree : MForest) (ws : List KanjiWord) : MForest :=
  if ws.isEmpty then tree else processForest ws tree

/-! ## The overlay compositor (`applyHighlighting`) -/

/-- A fragment produced when `applyHighlighting` splits a text leaf:
plain text, or a word wrapped together with the leaf text it actually
wraps (`text.substr(start, len)`, possibly partial) at the recorded
offset and length within the leaf. -/
inductive FragV1 where
  | plain : List Char → FragV1
  | wrap : KanjiWord → List Char → Nat → Nat → FragV1
deriving DecidableEq, Repr

/-- A `FragV1` as a DOM node. -/
def fragV1ToNode : FragV1 → MNode
  | .plain s => .text s
  | .wrap w wordText _ _ =>
    .elem "span".data "kanji-word".data
      (.cons (.text wordText) (.cons (popupNode w.data) .nil))

def fragsV1ToForest : List FragV1 → MForest
  | [] => .nil
  | f :: fs => .cons (fragV1ToNode f) (fragsV1ToForest fs)

def fragsV1HaveWrap : List FragV1 → Bool
  | [] => false
  | .wrap _ _ _ _ :: _ => true
  | .plain _ :: fs => fragsV1HaveWrap fs

/-- The word loop of `applyHighlighting` over one text leaf:
`wordStartInNode = max(0, position - nodePosition)`; a word starting
past the leaf is skipped; the wrapped length is clipped to what is left
of the leaf; there is no overlap check, and `lastIndex` simply becomes
`wordStartInNode + wordLengthInNode`. -/
def splitLeafV1 (text : List Char) (nodePos : Nat) :
    List KanjiWord → Nat → List FragV1
  | [], lastIndex =>
    if lastIndex < text.length then [.plain (text.drop lastIndex)] else []
  | w :: rest, lastIndex =>
    let s := w.position - nodePos
    if s ≥ text.length then splitLeafV1 text nodePos rest lastIndex
    else
      let l := min w.length (text.length - s)
      if l = 0 then splitLeafV1 text nodePos rest lastIndex
      else
        (if s > lastIndex then
          [FragV1.plain ((text.drop lastIndex).take (s - lastIndex))]
        else []) ++
        FragV1.wrap w ((text.drop s).take l) s l ::
          splitLeafV1 text nodePos rest (s + l)

/-- One collected text leaf in `applyHighlighting`: filter the words
intersecting the leaf's range, sort by position (stably), split, and
replace the leaf only when at least one word was wrapped
(`fragments.length > 0 && lastIndex > 0`). -/
def processLeafV1 (kanjiWords : List KanjiWord) (text : List Char)
    (nodePos : Nat) : MForest :=
  let relevant := sortByJs (fun a b => decide (a.position < b.position))
    (kanjiWords.filter fun word =>
      (decide (nodePos ≤ word.position) &&
        decide (word.position < nodePos + text.length)) ||
      (decide (word.position < nodePos) &&
        decide (nodePos < word.position + word.length)))
  if relevant.isEmpty then .cons (.text text) .nil
  else
    let frags := splitLeafV1 text nodePos relevant 0
    if fragsV1HaveWrap frags then fragsV1ToForest frags
    else .cons (.text text) .nil

mutual
/-- `collectTextNodes`: the non-blank text leaves in document order,
skipping `rt`/`rp` subtrees. -/
def collectTextsNode : MNode → List (List Char)
  | .text s => if s.isEmpty || (jsTrim s).isEmpty then [] else [s]
  | .elem tag _ children =>
    if tag == "rt".data || tag == "rp".data then []
    else collectTextsForest children
def collectTextsForest : MForest → List (List Char)
  | .nil => []
  | .cons n f => collectTextsNode n ++ collectTextsForest f
end

/-- The position pass of `applyHighlighting`: sequentially match each
collected leaf against the original text from the last matched
position; a leaf that is not found gets no entry (`none`, read back as
offset 0). -/
def nodePositions (originalText : List Char) :
    List (List Char) → Nat → List (Option Nat)
  | [], _ => []
  | t :: ts, cur =>
    match indexOfFrom originalText t cur with
    | some p => some p :: nodePositions originalText ts (p + t.length)
    | none => none :: nodePositions originalText ts cur

mutual
/-- The replacement pass of `applyHighlighting`, consuming the
positions of the collected leaves in document order. -/
def rebuildNodeV1 (ws : List KanjiWord) :
    MNode → List (Option Nat) → MForest × List (Option Nat)
  | .text s, ps =>
    if s.isEmpty || (jsTrim s).isEmpty then (.cons (.text s) .nil, ps)
    else
      match ps with
      | p :: rest => (processLeafV1 ws s (p.getD 0), rest)
      | [] => (.cons (.text s) .nil, [])
  | .elem tag cls children, ps =>
    if tag == "rt".data || tag == "rp".data then
      (.cons (.elem tag cls children) .nil, ps)
    else
      match rebuildForestV1 ws children ps with
      | (ch, ps2) => (.cons (.elem tag cls ch) .nil, ps2)
def rebuildForestV1 (ws : List KanjiWord) :
    MForest → List (Option Nat) → MForest × List (Option Nat)
  | .nil, ps => (.nil, ps)
  | .cons n f, ps =>
    match rebuildNodeV1 ws n ps with
    | (n2, ps2) =>
      match rebuildForestV1 ws f ps2 with
      | (f2, ps3) => (n2.append f2, ps3)
end

/-- The overlay render of `enhanceWithKanjiPopups`: return the tree
unchanged when no words were aligned, else sort the words by position
(ties: longer first) and run `applyHighlighting` over the tree. -/
def enhanceOverlay (tree : MForest) (kanjiWords : List KanjiWord)
    (originalText : List Char) : MForest :=
  if kanjiWords.isEmpty then tree
  else
    let sorted := sortByJs
      (fun a b => decide (a.position < b.position) ||
        (decide (a.position = b.position) &&
          decide (b.length < a.length))) kanjiWords
    (rebuildForestV1 sorted tree
      (nodePositions originalText (collectTextsForest tree) 0)).1

mutual
/-- The kanji-word spans of a composited tree, by the leaf text they
wrap (their first child); popup payloads are not descended into. -/
def wrappedTextsNode : MNode → List (List Char)
  | .text _ => []
  | .elem tag cls children =>
    if cls == "kanji-word".data then
      [match children with
       | .cons (.text s) _ => s
       | _ => (MNode.elem tag cls children).textContent]
    else if cls == "kanji-popup".data then []
    else wrappedTextsForest children
def wrappedTextsForest : MForest → List (List Char)
  | .nil => []
  | .cons n f => wrappedTextsNode n ++ wrappedTextsForest f
end

/-- Simultaneous structural induction over nodes and forests. -/
theorem mnode_mutual_ind (P : MNode → Prop) (Q : MForest → Prop)
    (htext : ∀ s, P (.text s))
    (helem : ∀ tag cls ch, Q ch → P (.elem tag cls ch))
    (hnil : Q .nil)
    (hcons : ∀ n f, P n → Q f → Q (.cons n f)) :
    (∀ n, P n) ∧ (∀ f, Q f) :=
  ⟨fun n => @MNode.rec P Q htext helem hnil hcons n,
   fun f => @MForest.rec P Q htext helem hnil hcons f⟩

theorem renderedAll_append (f g : MForest) :
    (f.append g).renderedAll = f.renderedAll ++ g.renderedAll := by
  refine (mnode_mutual_ind (fun _ => True)
    (fun f => ∀ g : MForest,
      (f.append g).renderedAll = f.renderedAll ++ g.renderedAll)
    (fun _ => trivial) (fun _ _ _ _ => trivial) ?_ ?_).2 f g
  · intro g
    simp [MForest.append, MForest.renderedAll]
  · intro n f _ ih g
    simp [MForest.append, MForest.renderedAll, ih g]

theorem renderedAll_fragsToForest (fs : List Frag) :
    (fragsToForest fs).renderedAll = (fs.map fragText).flatten := by
  induction fs with
  | nil => rfl
  | cons f rest ih =>
    cases f with
    | plain s =>
      simp [fragsToForest, fragToNode, MForest.renderedAll, fragText,
        MNode.renderedText, ih]
    | wrap w p =>
      simp [fragsToForest, fragToNode, MForest.renderedAll, fragText, ih]
      simp [MNode.renderedText, MForest.renderedAll, popupNode]

/-- The occurrence equation behind a successful search: the text from
the occurrence decomposes as the word followed by the rest. -/
theorem occursAt_decomp {hay needle : List Char} {p : Nat}
    (h : occursAt hay needle p = true) :
    hay.drop p = needle ++ hay.drop (p + needle.length) := by
  have heq : (hay.drop p).take needle.length = needle := eq_of_beq h
  have := List.take_append_drop needle.length (hay.drop p)
  rw [heq] at this
  rw [← this, List.drop_drop]

theorem leafLoop_rendered (text : List Char) :
    ∀ (ws : List KanjiWord) (li : Nat) (proc : List Nat), li ≤ text.length →
      ((leafLoop text ws li proc).map fragText).flatten = text.drop li := by
  intro ws
  induction ws with
  | nil =>
    intro li proc h
    by_cases hlt : li < text.length
    · simp [leafLoop, hlt, fragText]
    · have hle : li = text.length := by omega
      subst hle
      simp [leafLoop, List.drop_length]
  | cons w rest ih =>
    intro li proc h
    cases hidx : indexOfFrom text w.word li with
    | none =>
      simp only [leafLoop, hidx]
      exact ih li proc h
    | some p =>
      obtain ⟨hocc, hlip, hple⟩ := indexOfFrom_sound hidx
      have hplen : p + w.word.length ≤ text.length :=
        occursAt_le_length hple hocc
      by_cases hproc : isRangeProcessed p (p + w.word.length) proc = true
      · simp only [leafLoop, hidx, hproc, if_true]
        exact ih li proc h
      · have ihrest := ih (p + w.word.length)
          (markRangeProcessed p (p + w.word.length) proc) hplen
        by_cases hgap : p > li
        · simp only [leafLoop, hidx, hproc, if_false, if_pos hgap,
            Bool.false_eq_true]
          simp [fragText, ihrest]
          have hdd : (text.drop li).drop (p - li) = text.drop p := by
            rw [List.drop_drop]
            congr 1
            omega
          calc (text.drop li).take (p - li) ++
                (w.word ++ text.drop (p + w.word.length))
              = (text.drop li).take (p - li) ++ text.drop p := by
                rw [← occursAt_decomp hocc]
            _ = (text.drop li).take (p - li) ++
                (text.drop li).drop (p - li) := by rw [hdd]
            _ = text.drop li := List.take_append_drop _ _
        · have hpli : p = li := by omega
          subst hpli
          simp only [leafLoop, hidx, hproc, if_false, if_neg hgap,
            Bool.false_eq_true]
          simp [fragText, ihrest]
          exact (occursAt_decomp hocc).symm

/-- The claimed offset ranges of the wrapped fragments, in emission
order. -/
def wrapBounds : List Frag → List (Nat × Nat)
  | [] => []
  | .plain _ :: fs => wrapBounds fs
  | .wrap w p :: fs => (p, p + w.word.length) :: wrapBounds fs

theorem wrapBounds_append (a b : List Frag) :
    wrapBounds (a ++ b) = wrapBounds a ++ wrapBounds b := by
  induction a with
  | nil => rfl
  | cons f fs ih => cases f <;> simp [wrapBounds, ih]

theorem leafLoop_wrapBounds (text : List Char) :
    ∀ (ws : List KanjiWord) (li : Nat) (proc : List Nat),
      (∀ b ∈ wrapBounds (leafLoop text ws li proc), li ≤ b.1 ∧ b.1 ≤ b.2) ∧
      (wrapBounds (leafLoop text ws li proc)).Pairwise
        (fun a b => a.2 ≤ b.1) := by
  intro ws
  induction ws with
  | nil =>
    intro li proc
    constructor
    · intro b hb
      by_cases hlt : li < text.length <;> simp [leafLoop, hlt, wrapBounds] at hb
    · by_cases hlt : li < text.length <;> simp [leafLoop, hlt, wrapBounds]
  | cons w rest ih =>
    intro li proc
    cases hidx : indexOfFrom text w.word li with
    | none =>
      simp only [leafLoop, hidx]
      exact ih li proc
    | some p =>
      obtain ⟨_, hlip, _⟩ := indexOfFrom_sound hidx
      by_cases hproc : isRangeProcessed p (p + w.word.length) proc = true
      · simp only [leafLoop, hidx, hproc, if_true]
        exact ih li proc
      · obtain ⟨ihmem, ihpw⟩ := ih (p + w.word.length)
          (markRangeProcessed p (p + w.word.length) proc)
        have hb : wrapBounds ((if p > li then
              [Frag.plain ((text.drop li).take (p - li))] else []) ++
            Frag.wrap w p ::
              leafLoop text rest (p + w.word.length)
                (markRangeProcessed p (p + w.word.length) proc)) =
            (p, p + w.word.length) ::
              wrapBounds (leafLoop text rest (p + w.word.length)
                (markRangeProcessed p (p + w.word.length) proc)) := by
          rw [wrapBounds_append]
          by_cases hgap : p > li <;> simp [hgap, wrapBounds]
        simp only [leafLoop, hidx, hproc, Bool.false_eq_true, if_false, hb]
        constructor
        · intro b hbmem
          rcases List.mem_cons.mp hbmem with hb1 | hb1
          · subst hb1
            exact ⟨hlip, by omega⟩
          · have := ihmem b hb1
            exact ⟨by omega, this.2⟩
        · refine List.Pairwise.cons ?_ ihpw
          intro b hbmem
          have := ihmem b hbmem
          omega

theorem processNode_renderedAll (ws : List KanjiWord) :
    (∀ n : MNode, (processNode ws n).renderedAll = n.renderedText) ∧
    (∀ f : MForest, (processForest ws f).renderedAll = f.renderedAll) := by
  apply mnode_mutual_ind
  · intro s
    show (processTextNodeV2 ws s).renderedAll = s
    by_cases hblank : (s.isEmpty || (jsTrim s).isEmpty) = true
    · simp [processTextNodeV2, hblank, MForest.renderedAll, MNode.renderedText]
    · by_cases hrel : (relevantWordsV2 s ws).isEmpty = true
      · simp [processTextNodeV2, hblank, hrel, MForest.renderedAll,
          MNode.renderedText]
      · simp only [processTextNodeV2, hblank, hrel, Bool.false_eq_true,
          if_false]
        rw [renderedAll_fragsToForest,
          leafLoop_rendered s (relevantWordsV2 s ws) 0 [] (Nat.zero_le _)]
        simp
  · intro tag cls ch ih
    by_cases h1 : (tag == "rt".data) = true
    · simp [processNode, h1, MForest.renderedAll]
    · by_cases h2 : (tag == "ruby".data) = true
      · cases hfind : ws.find? (fun kw =>
            getRubyBase (.elem tag cls ch) == kw.word ||
            containsSub (getRubyBase (.elem tag cls ch)) kw.word ||
            containsSub kw.word (getRubyBase (.elem tag cls ch))) with
        | some kw =>
          simp only [processNode, h1, h2, Bool.false_eq_true, if_false,
            if_true, hfind]
          simp [MForest.renderedAll, MNode.renderedText, popupNode]
        | none =>
          simp only [processNode, h1, h2, Bool.false_eq_true, if_false,
            if_true, hfind]
          simp [MForest.renderedAll]
      · simp only [processNode, h1, h2, Bool.false_eq_true, if_false]
        by_cases hex : (tag == "rt".data || tag == "rp".data ||
            cls == "kanji-popup".data) = true
        · simp [MForest.renderedAll, MNode.renderedText, hex]
        · simp [MForest.renderedAll, MNode.renderedText, hex, ih]
  · rfl
  · intro n f ihn ihf
    show ((processNode ws n).append (processForest ws f)).renderedAll =
      n.renderedText ++ f.renderedAll
    rw [renderedAll_append, ihn, ihf]

theorem processForest_empty_words :
    (∀ n : MNode, processNode [] n = .cons n .nil) ∧
    (∀ f : MForest, processForest [] f = f) := by
  apply mnode_mutual_ind
  · intro s
    show processTextNodeV2 [] s = .cons (.text s) .nil
    by_cases hblank : (s.isEmpty || (jsTrim s).isEmpty) = true
    · simp [processTextNodeV2, hblank]
    · simp [processTextNodeV2, hblank, relevantWordsV2, sortByJs]
  · intro tag cls ch ih
    by_cases h1 : (tag == "rt".data) = true
    · simp [processNode, h1]
    · by_cases h2 : (tag == "ruby".data) = true
      · simp [processNode, h1, h2]
      · simp [processNode, h1, h2, ih]
  · rfl
  · intro n f ihn ihf
    show (processNode [] n).append (processForest [] f) = .cons n f
    rw [ihn, ihf]
    rfl

/-- Counterexample to C4 as stated: the overlay compositor
(`applyHighlighting`) has no claimed-range check, so when 東京都
(length 3) and 東京 (length 2) share start position 0 the composited
render wraps BOTH words — the shorter word's range is independently
wrapped inside a leaf whose fragments wrap the offset ranges `[0,3)`
and `[0,2)`, which overlap. -/
theorem applyHighlighting_overlap_counterexample :
    wrappedTextsForest (enhanceOverlay (.cons (.text "東京都".data) .nil)
        [⟨"東京".data, 0, 2, none⟩, ⟨"東京都".data, 0, 3, none⟩]
        "東京都".data) = ["東京都".data, "東京".data] ∧
    splitLeafV1 "東京都".data 0
        [⟨"東京都".data, 0, 3, none⟩, ⟨"東京".data, 0, 2, none⟩] 0 =
      [.wrap ⟨"東京都".data, 0, 3, none⟩ "東京都".data 0 3,
       .wrap ⟨"東京".data, 0, 2, none⟩ "東京".data 0 2,
       .plain "都".data] :=
  ⟨by decide, by decide⟩

/-- C4 (amended): in the tree-merge compositor (`processNode`) no two
wrapped ranges within one text leaf overlap: leaf processing claims
character ranges in order of first match position ascending with ties
broken by longer word first, and skips any word not found after the
cursor or whose range intersects an already-claimed offset; in
particular 東京都 and 東京 at the same start yield one wrapper, for
the longer word only.  The overlay compositor (`applyHighlighting`)
lacks the claimed-range check and can wrap overlapping ranges. -/
theorem processNode_no_overlap :
    (∀ (text : List Char) (ws : List KanjiWord) (li : Nat)
        (proc : List Nat),
      (wrapBounds (leafLoop text ws li proc)).Pairwise
        (fun a b => a.2 ≤ b.1 ∨ b.2 ≤ a.1)) ∧
    (∀ (text : List Char) (ws : List KanjiWord) (li : Nat)
        (proc : List Nat) (b : Nat × Nat),
      b ∈ wrapBounds (leafLoop text ws li proc) → li ≤ b.1 ∧ b.1 ≤ b.2) ∧
    leafLoop "東京都".data
        (relevantWordsV2 "東京都".data
          [⟨"東京".data, 0, 2, none⟩, ⟨"東京都".data, 0, 3, none⟩]) 0 [] =
      [Frag.wrap ⟨"東京都".data, 0, 3, none⟩ 0] ∧
    processForest [⟨"東京".data, 0, 2, none⟩, ⟨"東京都".data, 0, 3, none⟩]
        (.cons (.text "東京都".data) .nil) =
      .cons (.elem "span".data "kanji-word".data
        (.cons (.text "東京都".data)
          (.cons (popupNode none) .nil))) .nil := by
  refine ⟨?_, ?_, by decide, rfl⟩
  · intro text ws li proc
    exact ((leafLoop_wrapBounds text ws li proc).2).imp fun h => Or.inl h
  · intro text ws li proc b hb
    exact (leafLoop_wrapBounds text ws li proc).1 b hb

/-- Witness for C4 (amended): the bounds invariant applied to the
concrete one-word leaf 東京都, whose single claimed range is `[0,3)`. -/
theorem processNode_no_overlap_witness :
    (0 : Nat) ≤ ((0, 3) : Nat × Nat).1 ∧
    ((0, 3) : Nat × Nat).1 ≤ ((0, 3) : Nat × Nat).2 :=
  processNode_no_overlap.2.1 "東京都".data [⟨"東京都".data, 0, 3, none⟩]
    0 [] (0, 3) (by decide)

/-- Counterexample to C5 as stated: with the overlapping words 東京都
and 東京 at position 0, the overlay compositor's output renders
東京都東京都 for the input leaf 東京都 — characters are duplicated, so
concatenating the non-highlight fragments does not reproduce the
source text. -/
theorem overlay_roundtrip_counterexample :
    (enhanceOverlay (.cons (.text "東京都".data) .nil)
        [⟨"東京".data, 0, 2, none⟩, ⟨"東京都".data, 0, 3, none⟩]
        "東京都".data).renderedAll = "東京都東京都".data ∧
    (MForest.cons (.text "東京都".data) .nil).renderedAll =
      "東京都".data ∧
    "東京都東京都".data ≠ "東京都".data :=
  ⟨by decide, by decide, by decide⟩

/-- C5 (amended): the tree-merge compositor preserves the rendered
base text exactly — concatenating all non-highlight text fragments of
the composited tree (ignoring wrapper boundaries, excluding popup
payloads and reading sub-nodes) reproduces the rendered text of the
input tree, hence the original subtitle text when the input tree
renders it; a split leaf's fragments concatenate back to exactly the
leaf text (nothing dropped, duplicated or reordered).  The overlay
compositor can duplicate characters when word ranges overlap within
one leaf. -/
theorem processNode_roundtrip :
    (∀ (ws : List KanjiWord) (f : MForest),
      (processForest ws f).renderedAll = f.renderedAll) ∧
    (∀ (ws : List KanjiWord) (n : MNode),
      (processNode ws n).renderedAll = n.renderedText) ∧
    (∀ (ws : List KanjiWord) (text : List Char),
      (processForest ws (.cons (.text text) .nil)).renderedAll = text) ∧
    (∀ (text : List Char) (ws : List KanjiWord) (li : Nat)
        (proc : List Nat), li ≤ text.length →
      ((leafLoop text ws li proc).map fragText).flatten = text.drop li) := by
  refine ⟨fun ws => (processNode_renderedAll ws).2,
    fun ws => (processNode_renderedAll ws).1, ?_,
    fun text => leafLoop_rendered text⟩
  intro ws text
  rw [(processNode_renderedAll ws).2]
  simp [MForest.renderedAll, MNode.renderedText]

/-- Witness for C5 (amended): the fragment round-trip applied to the
concrete leaf 東京都 with the word 東京. -/
theorem processNode_roundtrip_witness :
    ((leafLoop "東京都".data [⟨"東京".data, 0, 2, none⟩] 0 []).map
      fragText).flatten = "東京都".data.drop 0 :=
  processNode_roundtrip.2.2.2 "東京都".data [⟨"東京".data, 0, 2, none⟩]
    0 [] (by decide)

/-- C9: compositing with an empty resolved word list returns the input
tree unchanged — the tree-merge guard, the overlay guard, and even the
unguarded tree-merge walk itself are the identity — so in particular
the rendered text of the output equals the rendered text of the
input. -/
theorem enhance_empty_words :
    (∀ tree : MForest, enhanceTreeV2 tree [] = tree) ∧
    (∀ (tree : MForest) (orig : List Char),
      enhanceOverlay tree [] orig = tree) ∧
    (∀ tree : MForest, processForest [] tree = tree) ∧
    (∀ tree : MForest,
      (enhanceTreeV2 tree []).renderedAll = tree.renderedAll) :=
  ⟨fun _ => rfl, fun _ _ => rfl, processForest_empty_words.2, fun _ => rfl⟩

/-- Witness for C9 at a concrete ruby tree. -/
theorem enhance_empty_words_witness :
    enhanceTreeV2 (.cons (.elem "ruby".data []
        (.cons (.text "東京".data)
          (.cons (.elem "rt".data [] (.cons (.text "とうきょう".data) .nil))
            .nil))) .nil) [] =
      .cons (.elem "ruby".data []
        (.cons (.text "東京".data)
          (.cons (.elem "rt".data [] (.cons (.text "とうきょう".data) .nil))
            .nil))) .nil :=
  enhance_empty_words.1 _
